import Mathlib

/-!
Verification of the foampilot index subsystem: the OpenFOAM dictionary parser
(`src/foampilot/index/parser.py`), the tutorial index builder
(`src/foampilot/index/builder.py`) and the tutorial searcher
(`src/foampilot/index/searcher.py`), shallowly embedded in Lean.

Python dynamic values are modelled by the closed `Value` sum type; Python
`dict`s (insertion ordered, unique keys) by association lists with
update-in-place insertion; Python `float`s by exact rationals (`ℚ`).
-/

set_option maxHeartbeats 1000000

namespace FoamPilot

/-- The heterogeneous Python value type used throughout the parser:
bool / int / float / str / list / nested dict (association list). -/
inductive Value where
  | bool : Bool → Value
  | int : Int → Value
  | float : ℚ → Value
  | str : String → Value
  | list : List Value → Value
  | dict : List (String × Value) → Value
deriving Repr

/-- Association-list model of a Python `dict` with `str` keys. -/
abbrev AList := List (String × Value)

/-- Is the value a mapping (`isinstance(node, dict)` in the source)? -/
def Value.isDict : Value → Bool
  | .dict _ => true
  | _ => false

/-- First-match lookup, the model of `dict.get` / `dict.__getitem__`. -/
def alookup : AList → String → Option Value
  | [], _ => none
  | (k', v') :: rest, k => if k' = k then some v' else alookup rest k

/-- Python `dict` assignment `d[k] = v`: replace in place when the key is
present (keeping its position), otherwise append at the end. -/
def ainsert : AList → String → Value → AList
  | [], k, v => [(k, v)]
  | (k', v') :: rest, k, v =>
      if k' = k then (k, v) :: rest else (k', v') :: ainsert rest k v

/-- Python `dict.pop(k, default)`'s effect on the mapping: remove the key. -/
def aremove : AList → String → AList
  | [], _ => []
  | (k', v') :: rest, k => if k' = k then aremove rest k else (k', v') :: aremove rest k

/-- Python `k in d` (key membership). -/
def amem (d : AList) (k : String) : Bool := (alookup d k).isSome

/-- The source's `key_path.split(".")`: splitting on the one-character
separator `"."` is a character-level split.  Always returns at least one
segment (Python `"".split(".") == [""]`). -/
def splitDotAux : List Char → List Char → List String
  | [], acc => [String.mk acc.reverse]
  | c :: cs, acc =>
      if c = '.' then String.mk acc.reverse :: splitDotAux cs []
      else splitDotAux cs (c :: acc)

/-- Python `s.split(".")` on a Lean string. -/
def splitDot (s : String) : List String := splitDotAux s.data []

/-- Parsed representation of an OpenFOAM dictionary file (`FoamDict`). -/
structure FoamDict where
  foam_file : AList
  data : AList
deriving Repr

/-- The walking loop of `FoamDict.get`: descend through nested mappings,
returning the caller's default (`none`) the moment a segment is missing or
the current node is not a mapping. -/
def getPath : Value → List String → Option Value
  | node, [] => some node
  | .dict d, p :: ps =>
      match alookup d p with
      | some v => getPath v ps
      | none => none
  | _, _ :: _ => none

/-- Model of `FoamDict.get(key_path)` with the default left at `None` (`none`). -/
def FoamDict.get (fd : FoamDict) (keyPath : String) : Option Value :=
  getPath (Value.dict fd.data) (splitDot keyPath)

/-- The loop of `FoamDict.set`: for every intermediate segment, reuse the
existing sub-dict when the key is bound to one, otherwise (missing key or
non-dict binding) install a fresh empty dict; assign the final segment
unconditionally.  `splitDot` never produces `[]`, so the first arm is
unreachable from `FoamDict.set`. -/
def setPath (d : AList) : List String → Value → AList
  | [], _ => d
  | [p], v => ainsert d p v
  | p :: ps@(_ :: _), v =>
      let child : AList :=
        match alookup d p with
        | some (.dict sub) => sub
        | _ => []
      ainsert d p (.dict (setPath child ps v))

/-- Model of `FoamDict.set(key_path, value)` (functional rendering of the in-place
mutation). -/
def FoamDict.set (fd : FoamDict) (keyPath : String) (v : Value) : FoamDict :=
  { fd with data := setPath fd.data (splitDot keyPath) v }

-- ── Scalar coercion (`FoamFileParser._coerce`) ────────────────────────────

/-- ASCII case folding; agrees with Python `str.lower` on ASCII input
(the only case-sensitive comparisons in the source are against ASCII
literals). -/
def toLowerAscii (c : Char) : Char :=
  if 'A' ≤ c ∧ c ≤ 'Z' then Char.ofNat (c.toNat + 32) else c

/-- Python `raw.lower()` on the character list. -/
def lowerAscii (cs : List Char) : List Char := cs.map toLowerAscii

/-- Trailer of `_RE_NUMBER` after the mantissa: `([eE][+-]?\d+)?$`. -/
def numExpTail : List Char → Bool
  | [] => true
  | c :: r =>
      if c = 'e' ∨ c = 'E' then
        let r' := match r with
          | s :: rr => if s = '+' ∨ s = '-' then rr else r
          | [] => r
        decide (r' ≠ []) && r'.all Char.isDigit
      else false

/-- The regex `_RE_NUMBER = ^[+-]?(\d+\.?\d*|\.\d+)([eE][+-]?\d+)?$` as a decision
procedure (ASCII digits; the two mantissa alternatives start with distinct
character classes, so the match is deterministic). -/
def matchNumber (cs : List Char) : Bool :=
  let cs' := match cs with
    | c :: r => if c = '+' ∨ c = '-' then r else cs
    | [] => []
  match cs' with
  | [] => false
  | c :: r =>
      if c.isDigit then
        -- `\d+\.?\d*`
        let afterInt := cs'.dropWhile Char.isDigit
        let afterMant := match afterInt with
          | '.' :: r' => r'.dropWhile Char.isDigit
          | _ => afterInt
        numExpTail afterMant
      else if c = '.' then
        -- `\.\d+`
        (decide (r.takeWhile Char.isDigit ≠ []) &&
          numExpTail (r.dropWhile Char.isDigit))
      else false

/-- Numeric value of a run of ASCII digits. -/
def digitsVal (ds : List Char) : Nat :=
  ds.foldl (fun acc c => 10 * acc + (c.toNat - '0'.toNat)) 0

/-- Python `int(raw)` on a `[+-]?\d+` string (the only shape on which the
source calls it, `_RE_NUMBER` having matched with no `.`/`e`). -/
def pyIntOfChars (cs : List Char) : Int :=
  match cs with
  | '-' :: r => -(digitsVal r : Int)
  | '+' :: r => (digitsVal r : Int)
  | _ => (digitsVal cs : Int)

/-- Integer digits of a `_RE_NUMBER` mantissa (after the sign). -/
def numIntDigits (cs : List Char) : List Char := cs.takeWhile Char.isDigit

/-- Fractional digits of the mantissa, when a `.` follows the integer
digits. -/
def numFracDigits (cs : List Char) : List Char :=
  match cs.dropWhile Char.isDigit with
  | '.' :: r => r.takeWhile Char.isDigit
  | _ => []

/-- Remainder after the whole mantissa (the exponent part, if any). -/
def numAfterMant (cs : List Char) : List Char :=
  match cs.dropWhile Char.isDigit with
  | '.' :: r => r.dropWhile Char.isDigit
  | rest => rest

/-- Signed value of an `[eE][+-]?\d+` exponent suffix (`0` when absent). -/
def numExpVal (cs : List Char) : Int :=
  match numAfterMant cs with
  | 'e' :: r =>
      (match r with
      | '-' :: rr => -(digitsVal (rr.takeWhile Char.isDigit) : Int)
      | '+' :: rr => (digitsVal (rr.takeWhile Char.isDigit) : Int)
      | _ => (digitsVal (r.takeWhile Char.isDigit) : Int))
  | 'E' :: r =>
      (match r with
      | '-' :: rr => -(digitsVal (rr.takeWhile Char.isDigit) : Int)
      | '+' :: rr => (digitsVal (rr.takeWhile Char.isDigit) : Int)
      | _ => (digitsVal (r.takeWhile Char.isDigit) : Int))
  | _ => 0

/-- Unsigned value of a `_RE_NUMBER` body: mantissa times ten to the
exponent. -/
def pyFloatMag (cs : List Char) : ℚ :=
  ((digitsVal (numIntDigits cs) : ℚ) +
      (digitsVal (numFracDigits cs) : ℚ) / (10 : ℚ) ^ (numFracDigits cs).length) *
    (10 : ℚ) ^ numExpVal cs

/-- Python `float(raw)` on a `_RE_NUMBER`-shaped string, as the exact
rational it denotes (the binary-float rounding of CPython is idealised
away; every claim about floats is about the denoted value). -/
def pyFloatOfChars (cs : List Char) : ℚ :=
  match cs with
  | '-' :: r => -pyFloatMag r
  | '+' :: r => pyFloatMag r
  | _ => pyFloatMag cs

/-- Model of `FoamFileParser._coerce` on the character list of the raw token. -/
def coerceChars (cs : List Char) : Value :=
  match cs with
  | [] => .str ""  -- `if not raw: return raw`
  | _ =>
    -- strip surrounding quotes: `raw.startswith('"') and raw.endswith('"')`
    if cs.head? = some '"' ∧ cs.getLast? = some '"' then
      .str (String.mk (cs.drop 1).dropLast)  -- `raw[1:-1]`
    else
      let l := lowerAscii cs
      if l = "true".data ∨ l = "on".data ∨ l = "yes".data then .bool true
      else if l = "false".data ∨ l = "off".data ∨ l = "no".data then .bool false
      else if matchNumber cs then
        -- `int`/`float` cannot raise on a `_RE_NUMBER` match, so the
        -- source's `except ValueError` path is dead
        if cs.contains '.' ∨ (lowerAscii cs).contains 'e' then
          .float (pyFloatOfChars cs)
        else .int (pyIntOfChars cs)
      else
        -- `$reference` and the default branch both return `raw` unchanged
        .str (String.mk cs)

/-- Model of `FoamFileParser._coerce(raw)`. -/
def pyCoerce (raw : String) : Value := coerceChars raw.data

-- ── Python `str`/`repr` of parsed values ─────────────────────────────────
-- `_parse_value` stringifies an embedded list with `str(lst)`; we model
-- Python's `repr` for the value forms the parser can produce.  Floats are
-- rendered by exact decimal expansion (CPython's shortest-round-trip repr
-- of a binary float has no exact counterpart over `ℚ`; parser-produced
-- floats are decimal so the expansion below is their exact value).

/-- Smallest `k ≤ fuel + start` with `d ∣ 10 ^ k`, searching upward. -/
def decExpAux (d : Nat) : Nat → Nat → Nat
  | start, 0 => start
  | start, fuel + 1 => if 10 ^ start % d = 0 then start else decExpAux d (start + 1) fuel

/-- Decimal rendering of a rational whose denominator divides a power of
ten (digit string with a decimal point, at least one integer digit). -/
def decimalString (q : ℚ) : String :=
  let k := decExpAux q.den 0 64
  if 10 ^ k % q.den = 0 then
    let n := q.num.natAbs * (10 ^ k / q.den)
    let ds := toString n
    let ds := if ds.length < k + 1 then
        String.mk (List.replicate (k + 1 - ds.length) '0') ++ ds
      else ds
    let ip := ds.dropRight k
    let fp := ds.takeRight k
    (if q.num < 0 then "-" else "") ++ ip ++ (if k = 0 then "" else "." ++ fp)
  else toString q.num ++ "/" ++ toString q.den

/-- Python `repr` of a float value (see note above). -/
def pyReprQ (q : ℚ) : String :=
  if q.den = 1 then (if q.num < 0 then "-" else "") ++ toString q.num.natAbs ++ ".0"
  else decimalString q

mutual

/-- Python `repr` of a parsed value (string quoting kept to the simple
single-quote form; no claim depends on repr escaping). -/
def pyReprValue : Value → String
  | .bool true => "True"
  | .bool false => "False"
  | .int n => toString n
  | .float q => pyReprQ q
  | .str s => "'" ++ s ++ "'"
  | .list xs => "[" ++ pyReprListInner xs ++ "]"
  | .dict d => "\x7b" ++ pyReprDictInner d ++ "\x7d"

/-- Comma-joined `repr`s of list elements. -/
def pyReprListInner : List Value → String
  | [] => ""
  | [x] => pyReprValue x
  | x :: y :: xs => pyReprValue x ++ ", " ++ pyReprListInner (y :: xs)

/-- Comma-joined `repr`s of dict items. -/
def pyReprDictInner : List (String × Value) → String
  | [] => ""
  | [(k, v)] => "'" ++ k ++ "': " ++ pyReprValue v
  | (k, v) :: e :: rest =>
      "'" ++ k ++ "': " ++ pyReprValue v ++ ", " ++ pyReprDictInner (e :: rest)

end

/-- Python `str(lst)` for a parsed list (`str` of a list is `repr`). -/
def pyStrOfList (xs : List Value) : String := "[" ++ pyReprListInner xs ++ "]"

-- ── Comment stripping (`FoamFileParser._strip_comments`) ──────────────────

/-- Python `\s` on ASCII text. -/
def pyIsSpace (c : Char) : Bool :=
  c = ' ' ∨ c = '\t' ∨ c = '\n' ∨ c = '\r' ∨ c = '\x0b' ∨ c = '\x0c'

/-- Everything from the first `\n` on (the regex `//[^\n]*` keeps the
newline itself). -/
def dropToNewline (cs : List Char) : List Char := cs.dropWhile (· ≠ '\n')

/-- Model of `_RE_COMMENT_SINGLE.sub("", ·)`: delete `//` line comments.  Fuel is
the input length; every step consumes at least one character. -/
def stripLineAux : Nat → List Char → List Char
  | 0, cs => cs
  | _ + 1, [] => []
  | fuel + 1, '/' :: '/' :: rest => stripLineAux fuel (dropToNewline rest)
  | fuel + 1, c :: cs => c :: stripLineAux fuel cs

/-- Remainder after the first `*/`, if any (the lazy `.*?\*/`). -/
def splitAtCloseComment : List Char → Option (List Char)
  | '*' :: '/' :: rest => some rest
  | _ :: rest => splitAtCloseComment rest
  | [] => none

/-- Model of `_RE_COMMENT_MULTI.sub(" ", ·)`: each closed `/* ... */` becomes one
space; an unterminated `/*` does not match and is left in place (the
scan resumes one character later, as in the regex engine). -/
def stripBlockAux : Nat → List Char → List Char
  | 0, cs => cs
  | _ + 1, [] => []
  | fuel + 1, '/' :: '*' :: rest =>
      match splitAtCloseComment rest with
      | some rest' => ' ' :: stripBlockAux fuel rest'
      | none => '/' :: stripBlockAux fuel ('*' :: rest)
  | fuel + 1, c :: cs => c :: stripBlockAux fuel cs

/-- Head match of the banner's closing `\\\*-+\*/`. -/
def bannerClose : List Char → Option (List Char)
  | '\\' :: '*' :: r =>
      if r.takeWhile (· = '-') = [] then none
      else
        match r.dropWhile (· = '-') with
        | '*' :: '/' :: rest => some rest
        | _ => none
  | _ => none

/-- The lazy `[\s\S]*?` before the banner's closing delimiter: scan for
the first position where `bannerClose` matches. -/
def bannerTail : List Char → Option (List Char)
  | [] => none
  | c :: rest =>
      match bannerClose (c :: rest) with
      | some r => some r
      | none => bannerTail rest

/-- Head match of `_RE_FOAM_HEADER`
(`/\*-+\*-\s*C\+\+\s*-\*-+\\\\\s*[\s\S]*?\\\*-+\*/`), returning the
remainder after the match.  Each greedy sub-run is followed by a
character it cannot itself match, so the translation is direct. -/
def matchBanner : List Char → Option (List Char)
  | '/' :: '*' :: r1 =>
      if r1.takeWhile (· = '-') = [] then none
      else
        match r1.dropWhile (· = '-') with
        | '*' :: '-' :: r3 =>
            (match r3.dropWhile pyIsSpace with
            | 'C' :: '+' :: '+' :: r5 =>
                (match r5.dropWhile pyIsSpace with
                | '-' :: '*' :: r7 =>
                    if r7.takeWhile (· = '-') = [] then none
                    else
                      (match r7.dropWhile (· = '-') with
                      | '\\' :: '\\' :: r9 => bannerTail (r9.dropWhile pyIsSpace)
                      | _ => none)
                | _ => none)
            | _ => none)
        | _ => none
  | _ => none

/-- Model of `_RE_FOAM_HEADER.sub("", ·)`: delete every banner match, scanning
left to right. -/
def stripBannerAux : Nat → List Char → List Char
  | 0, cs => cs
  | _ + 1, [] => []
  | fuel + 1, c :: cs =>
      match matchBanner (c :: cs) with
      | some rest => stripBannerAux fuel rest
      | none => c :: stripBannerAux fuel cs

/-- Model of `_strip_comments`: banner first, then block comments, then line
comments. -/
def pyStripComments (cs : List Char) : List Char :=
  let a := stripBannerAux cs.length cs
  let b := stripBlockAux a.length a
  stripLineAux b.length b

-- ── Tokenizer (`FoamFileParser._tokenize`) ────────────────────────────────

/-- The five structural one-character delimiters. -/
def isDelimChar (c : Char) : Bool :=
  c = '\x7b' ∨ c = '\x7d' ∨ c = '(' ∨ c = ')' ∨ c = ';'

/-- A character of a bare token: `[^\s{}();"]`. -/
def bareTokChar (c : Char) : Bool :=
  !(pyIsSpace c) && !(isDelimChar c) && c ≠ '"'

/-- Split at the first `"`, returning (inside, after). -/
def splitAtQuote : List Char → List Char → Option (List Char × List Char)
  | [], _ => none
  | c :: rest, acc =>
      if c = '"' then some (acc.reverse, rest) else splitAtQuote rest (c :: acc)

/-- Model of `_RE_TOKEN.findall`: quoted strings (kept whole, quotes included),
single-character delimiters, else maximal bare runs; characters that
start no token (whitespace, an unpaired quote) are skipped.  Fuel is the
input length; every step consumes at least one character. -/
def tokenizeAux : Nat → List Char → List String
  | 0, _ => []
  | _ + 1, [] => []
  | fuel + 1, c :: cs =>
      if c = '"' then
        match splitAtQuote cs [] with
        | some (inner, rest) =>
            String.mk ('"' :: (inner ++ ['"'])) :: tokenizeAux fuel rest
        | none => tokenizeAux fuel cs
      else if isDelimChar c then
        String.mk [c] :: tokenizeAux fuel cs
      else if pyIsSpace c then tokenizeAux fuel cs
      else
        String.mk ((c :: cs).takeWhile bareTokChar) ::
          tokenizeAux fuel ((c :: cs).dropWhile bareTokChar)

/-- Model of `_tokenize` on a character list. -/
def tokenize (cs : List Char) : List String := tokenizeAux cs.length cs

-- ── Recursive descent parser ──────────────────────────────────────────────

/-- Python `tok.strip('"')`: remove every leading and trailing quote character. -/
def stripQuoteChars (s : String) : String :=
  String.mk (((s.data.dropWhile (· = '"')).reverse.dropWhile (· = '"')).reverse)

/-- Python `" ".join(parts)`. -/
def joinSpace (parts : List String) : String := String.intercalate " " parts

/-- Python `str.strip()`: drop whitespace from both ends. -/
def pyStrip (s : String) : String :=
  String.mk (((s.data.dropWhile pyIsSpace).reverse.dropWhile pyIsSpace).reverse)

/-- The source's `if pos < len(tokens) and tokens[pos] == ";": pos += 1`. -/
def consumeSemi (toks : List String) (p : Nat) : Nat :=
  if p < toks.length ∧ toks.getD p "" = ";" then p + 1 else p

mutual

/-- Model of `FoamFileParser._parse_block_contents`: consume key/value pairs until
a closing brace or end of input, returning the new cursor and the
accumulated entries.  The token list is fixed; `pos` is the single
monotonically advancing cursor of the source; `acc` is the `entries`
dict being built.  Fuel only bounds recursion depth: every recursive
call advances the cursor, so `toks.length + 1` fuel is never exhausted
(theorems that need it receive fuel explicitly). -/
def parseBlockContents : Nat → List String → Nat → AList → Nat × AList
  | 0, _, pos, acc => (pos, acc)
  | fuel + 1, toks, pos, acc =>
      if pos < toks.length then
        let tok := toks.getD pos ""
        if tok = "\x7d" then (pos, acc)
        else if tok = ";" then parseBlockContents fuel toks (pos + 1) acc
        else if tok.startsWith "#include" then
          parseBlockContents fuel toks
            (if pos + 1 < toks.length then pos + 2 else pos + 1) acc
        else
          let key := stripQuoteChars tok
          if pos + 1 < toks.length then
            let nextTok := toks.getD (pos + 1) ""
            if nextTok = "\x7b" then
              let r := parseBlockContents fuel toks (pos + 2) []
              let p2 := if r.1 < toks.length ∧ toks.getD r.1 "" = "\x7d"
                then r.1 + 1 else r.1
              parseBlockContents fuel toks p2 (ainsert acc key (.dict r.2))
            else if nextTok = "(" then
              let r := parseList fuel toks (pos + 2)
              parseBlockContents fuel toks (consumeSemi toks r.1)
                (ainsert acc key (.list r.2))
            else if nextTok = ";" then
              parseBlockContents fuel toks (pos + 2) (ainsert acc key (.bool true))
            else
              let r := parseValue fuel toks (pos + 1) []
              parseBlockContents fuel toks (consumeSemi toks r.1)
                (ainsert acc key r.2)
          else (pos + 1, acc)
      else (pos, acc)

/-- Model of `FoamFileParser._parse_list`: the caller consumed the opening `(`;
consume items until `)` or end of input (the `)` is consumed here). -/
def parseList : Nat → List String → Nat → Nat × List Value
  | 0, _, pos => (pos, [])
  | fuel + 1, toks, pos =>
      if pos < toks.length then
        let tok := toks.getD pos ""
        if tok = ")" then (pos + 1, [])
        else if tok = "(" then
          let r := parseList fuel toks (pos + 1)
          let rest := parseList fuel toks r.1
          (rest.1, .list r.2 :: rest.2)
        else if tok = "\x7b" then
          let r := parseBlockContents fuel toks (pos + 1) []
          let p2 := if r.1 < toks.length ∧ toks.getD r.1 "" = "\x7d"
            then r.1 + 1 else r.1
          let rest := parseList fuel toks p2
          (rest.1, .dict r.2 :: rest.2)
        else if tok = ";" then parseList fuel toks (pos + 1)
        else
          let rest := parseList fuel toks (pos + 1)
          (rest.1, pyCoerce tok :: rest.2)
      else (pos, [])

/-- Model of `FoamFileParser._parse_value`: accumulate tokens (embedded lists
stringified) until `;`, `}` or `{`, then join with spaces, strip and
coerce. -/
def parseValue : Nat → List String → Nat → List String → Nat × Value
  | 0, _, pos, parts => (pos, pyCoerce (pyStrip (joinSpace parts)))
  | fuel + 1, toks, pos, parts =>
      let tok := toks.getD pos ""
      if pos < toks.length ∧ tok ≠ ";" ∧ tok ≠ "\x7d" ∧ tok ≠ "\x7b" then
        if tok = "(" then
          let r := parseList fuel toks (pos + 1)
          parseValue fuel toks r.1 (parts ++ [pyStrOfList r.2])
        else parseValue fuel toks (pos + 1) (parts ++ [tok])
      else (pos, pyCoerce (pyStrip (joinSpace parts)))

end

/-- Model of `parse_string` after tokenization: parse the whole stream, then pop
the `FoamFile` header block out of the entries (it becomes the header
only when it is a mapping). -/
def parseTokens (toks : List String) : FoamDict :=
  let r := parseBlockContents (toks.length + 1) toks 0 []
  match alookup r.2 "FoamFile" with
  | some (.dict d) => ⟨d, aremove r.2 "FoamFile"⟩
  | some _ => ⟨[], aremove r.2 "FoamFile"⟩
  | none => ⟨[], r.2⟩

/-- Model of `FoamFileParser.parse_string` (the `source` label only feeds log
messages): strip comments, tokenize, parse. -/
def parseFoamString (text : String) : FoamDict :=
  parseTokens (tokenize (pyStripComments text.data))

-- ── Index builder (`builder.py`) ──────────────────────────────────────────

/-- An embedding vector (Python `list[float]`, idealised over `ℚ`). -/
abbrev Vec := List ℚ

/-- Model of `TutorialEntry` from `builder.py` (the `embedding` field defaults to
`None` exactly as in the dataclass; `_extract_entry` never sets it). -/
structure TutorialEntry where
  path : String
  solver : String
  version : String
  files : List String
  boundary_patches : List (String × String)
  physics_tags : List String
  turbulence_model : Option String
  has_heat_transfer : Bool
  has_multiphase : Bool
  mesh_type : String
  description : String
  embedding : Option Vec := none
deriving Repr, DecidableEq

/-- Model of `IndexBuilder._add_embeddings`: when `embed_batch` returns a truthy
list, `zip(entries, embeddings)` attaches vector `i` to entry `i` for the
common prefix; entries past the batch keep their embedding; a `None`
or empty batch leaves every entry untouched. -/
def addEmbeddings (entries : List TutorialEntry) (batch : Option (List Vec)) :
    List TutorialEntry :=
  match batch with
  | some embs =>
      if embs.isEmpty then entries
      else
        ((entries.zip embs).map fun p => { p.1 with embedding := some p.2 }) ++
          entries.drop embs.length
  | none => entries

/-- The rows of the persisted embeddings file in `IndexBuilder._save`:
`valid = [e for e in embeddings_data if e is not None]` — the non-`None`
vectors, compacted in entry order. -/
def savedEmbeddingRows (entries : List TutorialEntry) : List Vec :=
  (entries.map (·.embedding)).filterMap id

/-- The condition under which `_save` writes an embeddings file: some
vector exists. -/
def savedHasEmbeddings (entries : List TutorialEntry) : Bool :=
  (entries.map (·.embedding)).any (·.isSome)

/-- The per-case file-system facts consulted by `_has_heat_transfer` and
`_has_multiphase`: existence of `constant/thermophysicalProperties`,
`constant/g` and `constant/transportProperties`, and the text of the
latter when it is readable (`none` models an unreadable file, whose
`OSError` the source catches and ignores). -/
structure CaseFiles where
  thermoExists : Bool
  gExists : Bool
  transportExists : Bool
  transportText : Option String
deriving Repr, DecidableEq

/-- Model of `IndexBuilder._has_heat_transfer`: tag present, else
`thermo_path.exists() or g_path.exists()`. -/
def hasHeatTransfer (fs : CaseFiles) (physicsTags : List String) : Bool :=
  physicsTags.contains "heat_transfer" || fs.thermoExists || fs.gExists

/-- Model of `IndexBuilder._has_multiphase`: tag present, else a readable
`constant/transportProperties` whose parse contains a `phases` key. -/
def hasMultiphase (fs : CaseFiles) (physicsTags : List String) : Bool :=
  physicsTags.contains "multiphase" ||
    (fs.transportExists &&
      match fs.transportText with
      | some txt => amem (parseFoamString txt).data "phases"
      | none => false)

/-- The heat-transfer flag exactly as the spec sentence words it (tag
present, or a thermophysical-properties file exists) — stated for
comparison with `hasHeatTransfer`, which also consults `constant/g`. -/
def specHasHeatTransfer (fs : CaseFiles) (physicsTags : List String) : Bool :=
  physicsTags.contains "heat_transfer" || fs.thermoExists

-- ── Case discovery (`IndexBuilder._find_cases`) ───────────────────────────

/-- A directory tree as `os.walk` sees it: each directory carries its
children in the order the operating system enumerates them (`os.walk`
does not sort). -/
inductive FSTree where
  | file : String → FSTree
  | dir : String → List FSTree → FSTree
deriving Repr

/-- Name of a tree node. -/
def FSTree.nameOf : FSTree → String
  | .file n => n
  | .dir n _ => n

/-- The check `(root_path / "system" / "controlDict").exists()`: a child directory
named `system` containing an entry named `controlDict`. -/
def hasCaseMarker (children : List FSTree) : Bool :=
  children.any fun c =>
    match c with
    | .dir n sub => n = "system" && sub.any (fun f => f.nameOf = "controlDict")
    | .file _ => false

mutual

/-- Model of `IndexBuilder._find_cases` over the modelled tree: `os.walk` visits
the root first; a case root is yielded and pruned (`dirs.clear()`),
otherwise the walk descends into each child directory in enumeration
order.  Paths are segment lists from the walk root. -/
def findCases (pre : List String) : FSTree → List (List String)
  | .file _ => []
  | .dir nm ch =>
      if hasCaseMarker ch then [pre ++ [nm]]
      else findCasesList (pre ++ [nm]) ch

/-- Walk a list of siblings in order (files contribute nothing). -/
def findCasesList (pre : List String) : List FSTree → List (List String)
  | [] => []
  | c :: cs => findCases pre c ++ findCasesList pre cs

end

/-- Strict lexicographic order on character lists by code point —
Python's `str <`. -/
def charListLt : List Char → List Char → Bool
  | [], [] => false
  | [], _ :: _ => true
  | _ :: _, [] => false
  | a :: as', b :: bs =>
      if a.toNat < b.toNat then true
      else if a = b then charListLt as' bs else false

/-- Python's `<` on strings. -/
def pyStrLt (a b : String) : Bool := charListLt a.data b.data

/-- Lexicographic order on segment paths (shorter prefix first). -/
def pathLexLt : List String → List String → Bool
  | [], [] => false
  | [], _ :: _ => true
  | _ :: _, [] => false
  | a :: as', b :: bs => if pyStrLt a b then true else if a = b then pathLexLt as' bs else false

/-- Strict lexical sortedness of a path list (pairwise). -/
def pathsSortedLex : List (List String) → Bool
  | [] => true
  | p :: ps => ps.all (pathLexLt p) && pathsSortedLex ps

/-- Strictly increasing sibling names (pairwise). -/
def namesStrictSorted : List String → Bool
  | [] => true
  | n :: ns => ns.all (fun x => pyStrLt n x) && namesStrictSorted ns

mutual

/-- Every directory of the tree enumerates its children in strictly
increasing name order. -/
def treeSorted : FSTree → Bool
  | .file _ => true
  | .dir _ ch => namesStrictSorted (ch.map FSTree.nameOf) && treeSortedList ch

/-- Predicate `treeSorted` over a sibling list. -/
def treeSortedList : List FSTree → Bool
  | [] => true
  | c :: cs => treeSorted c && treeSortedList cs

end

-- ── Searcher (`searcher.py`) ──────────────────────────────────────────────

/-- Python truthiness of an optional string argument. -/
def truthyS : Option String → Bool
  | none => false
  | some s => !(s = "")

/-- Python truthiness of an optional string-list argument. -/
def truthyL : Option (List String) → Bool
  | none => false
  | some l => !l.isEmpty

/-- Python truthiness of an optional vector. -/
def truthyVec : Option Vec → Bool
  | none => false
  | some v => !v.isEmpty

/-- Python truthiness of the loaded embeddings collection. -/
def truthyVecs : Option (List Vec) → Bool
  | none => false
  | some l => !l.isEmpty

/-- The `_hard_filter` solver test: reject iff a truthy solver was given
and differs from the entry's. -/
def solverOk (solver : Option String) (e : TutorialEntry) : Bool :=
  if truthyS solver then decide (e.solver = solver.getD "") else true

/-- The `_hard_filter` physics test: reject iff truthy tags were given and
some requested tag is missing from the entry. -/
def tagsOk (tags : Option (List String)) (e : TutorialEntry) : Bool :=
  if truthyL tags then (tags.getD []).all (fun t => e.physics_tags.contains t)
  else true

/-- The `_hard_filter` mesh test. -/
def meshOk (mesh : Option String) (e : TutorialEntry) : Bool :=
  if truthyS mesh then decide (e.mesh_type = mesh.getD "") else true

/-- Model of `TutorialSearcher._hard_filter`: `(original_index, entry)` pairs that
pass all three conjunctive filters, in corpus order. -/
def hardFilter (entries : List TutorialEntry) (solver : Option String)
    (tags : Option (List String)) (mesh : Option String) :
    List (Nat × TutorialEntry) :=
  entries.enum.filter fun p => solverOk solver p.2 && tagsOk tags p.2 && meshOk mesh p.2

/-- The candidate set after `search`'s hard filter and its in-line
relaxation ladder (`searcher.py` lines 171–199): each relaxation stage
runs only under the source's exact conditions. -/
def relaxCandidates (entries : List TutorialEntry) (solver : Option String)
    (tags : Option (List String)) (mesh : Option String) :
    List (Nat × TutorialEntry) :=
  let c0 := hardFilter entries solver tags mesh
  if c0.isEmpty then
    let c1 := if truthyS solver && (truthyL tags || truthyS mesh)
      then hardFilter entries none tags mesh else c0
    let c2 := if c1.isEmpty && truthyL tags
      then hardFilter entries none none mesh else c1
    if c2.isEmpty then hardFilter entries none none none else c2
  else c0

/-- The relaxation ladder exactly as the spec words it — drop the solver,
then also the tags, then everything, stopping at the first non-empty
result — stated for comparison with `relaxCandidates`. -/
def specLadder (entries : List TutorialEntry) (tags : Option (List String))
    (mesh : Option String) : List (Nat × TutorialEntry) :=
  let r1 := hardFilter entries none tags mesh
  if r1.isEmpty then
    let r2 := hardFilter entries none none mesh
    if r2.isEmpty then hardFilter entries none none none else r2
  else r1

/-- Scoring weights (40/30/20/10%). -/
def wSolver : ℚ := 2/5
/-- Physics weight. -/
def wPhysics : ℚ := 3/10
/-- Keyword weight. -/
def wKeyword : ℚ := 1/5
/-- Semantic weight. -/
def wSemantic : ℚ := 1/10

/-- Is `needle` a substring of `haystack` (Python `in` on `str`)? -/
def isSubstr (n : List Char) : List Char → Bool
  | [] => n.isPrefixOf []
  | c :: t => if n.isPrefixOf (c :: t) then true else isSubstr n t

/-- The lowered searchable text of an entry:
`(path + " " + description + " " + " ".join(physics_tags)).lower()`. -/
def searchableChars (e : TutorialEntry) : List Char :=
  lowerAscii (e.path ++ " " ++ e.description ++ " " ++ joinSpace e.physics_tags).data

/-- Python `kw.lower() in searchable`. -/
def kwMatches (e : TutorialEntry) (kw : String) : Bool :=
  isSubstr (lowerAscii kw.data) (searchableChars e)

/-- Solver term of `_score` (full weight on an exact match, half weight
when no solver was requested, zero on a mismatch). -/
def solverTerm (solver : Option String) (e : TutorialEntry) : ℚ :=
  match solver with
  | some s => if s = "" then wSolver * (1/2)
      else if e.solver = s then wSolver else 0
  | none => wSolver * (1/2)

/-- Physics-tag term of `_score`. -/
def tagTerm (tags : List String) (e : TutorialEntry) : ℚ :=
  if tags.isEmpty then wPhysics * (1/2)
  else (wPhysics * (tags.countP (fun t => e.physics_tags.contains t) : ℚ)) /
    (tags.length : ℚ)

/-- Keyword term of `_score`. -/
def kwTerm (kws : List String) (e : TutorialEntry) : ℚ :=
  if kws.isEmpty then wKeyword * (1/2)
  else (wKeyword * (kws.countP (kwMatches e) : ℚ)) / (kws.length : ℚ)

/-- Semantic term of `_score`.  The cosine similarity of two float
vectors (`embeddings.cosine_similarity`, a dot product over square-root
norms) has no exact rational form, so the similarity function is an
explicit parameter; every claim holds for all of them. -/
def semTerm (cosSim : Vec → Vec → ℚ) (qe ee : Option Vec) : ℚ :=
  if truthyVec qe && truthyVec ee then
    wSemantic * max 0 (cosSim (qe.getD []) (ee.getD []))
  else wSemantic * (1/2)

/-- Model of `TutorialSearcher._score` (the returned `match_reasons` strings are
log output and are not modelled): sum of the four weighted terms, capped
at `1`. -/
def scoreEntry (cosSim : Vec → Vec → ℚ) (e : TutorialEntry)
    (solver : Option String) (tags kws : List String) (qe ee : Option Vec) : ℚ :=
  min (solverTerm solver e + tagTerm tags e + kwTerm kws e + semTerm cosSim qe ee) 1

/-- The entry embedding used when scoring the candidate at corpus
position `idx`:
`self._embeddings[idx] if self._embeddings and idx < len(self._embeddings) else None`. -/
def entryEmbFor (embeddings : Option (List Vec)) (idx : Nat) : Option Vec :=
  match embeddings with
  | some es => if !es.isEmpty && idx < es.length then some (es.getD idx []) else none
  | none => none

/-- One ranked search result (entry and relevance score). -/
structure SearchResult where
  entry : TutorialEntry
  score : ℚ
deriving Repr, DecidableEq

/-- Python `l[:n]` for an `int` bound (negative bounds count from the
end, clamped at zero). -/
def pySliceTo (n : Int) (l : List SearchResult) : List SearchResult :=
  if 0 ≤ n then l.take n.toNat else l.take (l.length - n.natAbs)

/-- Model of `TutorialSearcher.search` after the index was loaded: the entry
corpus and optional embeddings stand for the loaded state; `embedText`
is the external embedding provider (`embed_text`), `cosSim` the float
cosine similarity (see `semTerm`).  Empty corpus returns `[]`; hard
filter plus relaxation; a query embedding is computed only for a truthy
`query_text` when embeddings are loaded; candidates are scored, sorted
stably by descending score and truncated to `top_n`. -/
def searchResults (cosSim : Vec → Vec → ℚ) (embedText : String → Option Vec)
    (entries : List TutorialEntry) (embeddings : Option (List Vec))
    (solver : Option String) (physicsTags : Option (List String))
    (keywords : Option (List String)) (queryText : Option String)
    (topN : Int) (requireMeshType : Option String) : List SearchResult :=
  if entries.isEmpty then []
  else
    let candidates := relaxCandidates entries solver physicsTags requireMeshType
    if candidates.isEmpty then []
    else
      let queryEmb : Option Vec :=
        match queryText with
        | some qt => if !(qt = "") && truthyVecs embeddings then embedText qt else none
        | none => none
      let scored := candidates.map fun ie =>
        SearchResult.mk ie.2
          (scoreEntry cosSim ie.2 solver (physicsTags.getD []) (keywords.getD [])
            queryEmb (entryEmbFor embeddings ie.1))
      let sorted := scored.mergeSort (fun a b => decide (b.score ≤ a.score))
      pySliceTo topN sorted

-- ═══════════════════════════════════════════════════════════════════════════
-- Theorems
-- ═══════════════════════════════════════════════════════════════════════════

theorem lowerAscii_cons (c : Char) (cs : List Char) :
    lowerAscii (c :: cs) = toLowerAscii c :: lowerAscii cs := rfl

-- ── Dict-model lemmas ─────────────────────────────────────────────────────

theorem alookup_ainsert_self (d : AList) (k : String) (v : Value) :
    alookup (ainsert d k v) k = some v := by
  induction d with
  | nil => simp [ainsert, alookup]
  | cons hd tl ih =>
      obtain ⟨k', v'⟩ := hd
      by_cases h : k' = k
      · simp [ainsert, h, alookup]
      · simp [ainsert, h, alookup, ih]

theorem splitDotAux_ne_nil (cs : List Char) (acc : List Char) :
    splitDotAux cs acc ≠ [] := by
  induction cs generalizing acc with
  | nil => simp [splitDotAux]
  | cons c cs ih =>
      by_cases h : c = '.'
      · simp [splitDotAux, h]
      · simp only [splitDotAux, if_neg h]
        exact ih _

theorem splitDot_ne_nil (s : String) : splitDot s ≠ [] :=
  splitDotAux_ne_nil s.data []

theorem getPath_setPath (parts : List String) (d : AList) (v : Value)
    (h : parts ≠ []) :
    getPath (Value.dict (setPath d parts v)) parts = some v := by
  induction parts generalizing d with
  | nil => exact absurd rfl h
  | cons p ps ih =>
      cases ps with
      | nil =>
          simp [setPath, getPath, alookup_ainsert_self]
      | cons q qs =>
          simp only [setPath, getPath, alookup_ainsert_self]
          exact ih _ (by simp)

/-- C3: for every document, every dotted path string and every value,
`get` immediately after `set` on the same path returns that value. -/
theorem get_after_set_roundtrip (fd : FoamDict) (keyPath : String) (v : Value) :
    (fd.set keyPath v).get keyPath = some v :=
  getPath_setPath (splitDot keyPath) fd.data v (splitDot_ne_nil keyPath)

/-- C10: `set` is total (it is a function on all paths and values); when
an intermediate segment is bound to a non-mapping value the binding is
replaced by a fresh empty mapping before descending (the old value is
discarded), and the final segment is assigned unconditionally,
overwriting whatever was there. -/
theorem set_total_replaces_nondict (d : AList) (p : String)
    (ps : List String) (v w : Value) (hps : ps ≠ [])
    (hw : alookup d p = some w) (hnd : w.isDict = false) :
    setPath d (p :: ps) v = ainsert d p (.dict (setPath [] ps v))
    ∧ (∀ (d' : AList) (q : String), setPath d' [q] v = ainsert d' q v)
    ∧ (∀ (d' : AList) (q : String), alookup (ainsert d' q v) q = some v) := by
  refine ⟨?_, fun d' q => by simp [setPath], fun d' q => alookup_ainsert_self d' q v⟩
  cases ps with
  | nil => exact absurd rfl hps
  | cons q qs =>
      simp only [setPath, hw]
      cases w with
      | dict sub => simp [Value.isDict] at hnd
      | bool b => rfl
      | int n => rfl
      | float x => rfl
      | str s => rfl
      | list l => rfl

/-- Witness for C10 at a concrete input: the path `a.b` over a document
whose `a` is bound to the integer `1`. -/
theorem set_total_replaces_nondict_witness :
    setPath [("a", Value.int 1)] ["a", "b"] (Value.bool true) =
      ainsert [("a", Value.int 1)] "a"
        (.dict (setPath [] ["b"] (Value.bool true)))
    ∧ (∀ (d' : AList) (q : String),
        setPath d' [q] (Value.bool true) = ainsert d' q (Value.bool true))
    ∧ (∀ (d' : AList) (q : String),
        alookup (ainsert d' q (Value.bool true)) q = some (Value.bool true)) :=
  set_total_replaces_nondict [("a", Value.int 1)] "a" ["b"]
    (Value.bool true) (Value.int 1) (by simp) rfl rfl

/-- C4: scalar coercion maps the boolean-looking unquoted tokens to
booleans case-insensitively, `3` to the integer `3`, `1e-06` to the
rational `1e-6`, returns a `$`-sigil token unchanged, and strips the
quotes off a surrounding-quoted token returning its content as a string
(so a quoted `"3"` — the instance `cs = ['3']` of the last conjunct —
stays the string `3`: quoting wins over numeric-looking content). -/
theorem coerce_spec :
    (∀ cs : List Char,
        lowerAscii cs = "true".data ∨ lowerAscii cs = "on".data ∨
          lowerAscii cs = "yes".data →
        coerceChars cs = .bool true)
    ∧ (∀ cs : List Char,
        lowerAscii cs = "false".data ∨ lowerAscii cs = "off".data ∨
          lowerAscii cs = "no".data →
        coerceChars cs = .bool false)
    ∧ pyCoerce "3" = .int 3
    ∧ pyCoerce "1e-06" = .float (1 / 1000000)
    ∧ (∀ cs : List Char, coerceChars ('$' :: cs) = .str (String.mk ('$' :: cs)))
    ∧ (∀ cs : List Char, coerceChars ('"' :: cs ++ ['"']) = .str (String.mk cs)) := by
  refine ⟨?_, ?_, rfl, ?_, ?_, ?_⟩
  · intro cs h
    cases cs with
    | nil => rcases h with h|h|h <;> simp [lowerAscii] at h
    | cons c cs' =>
        have hq : ¬ ((c :: cs').head? = some '"' ∧ (c :: cs').getLast? = some '"') := by
          rintro ⟨h1, _⟩
          simp only [List.head?_cons, Option.some.injEq] at h1
          subst h1
          rcases h with h|h|h <;>
            · rw [lowerAscii_cons, show toLowerAscii '"' = '"' from by decide] at h
              simp at h
        simp only [coerceChars, if_neg hq]
        rcases h with h|h|h <;> simp [h]
  · intro cs h
    cases cs with
    | nil => rcases h with h|h|h <;> simp [lowerAscii] at h
    | cons c cs' =>
        have hq : ¬ ((c :: cs').head? = some '"' ∧ (c :: cs').getLast? = some '"') := by
          rintro ⟨h1, _⟩
          simp only [List.head?_cons, Option.some.injEq] at h1
          subst h1
          rcases h with h|h|h <;>
            · rw [lowerAscii_cons, show toLowerAscii '"' = '"' from by decide] at h
              simp at h
        simp only [coerceChars, if_neg hq]
        rcases h with h|h|h <;> rw [h] <;> rw [if_neg (by decide), if_pos (by decide)]
  · have h0 : pyCoerce "1e-06" = .float (pyFloatOfChars "1e-06".data) := rfl
    rw [h0]
    have h1 : pyFloatOfChars "1e-06".data = pyFloatMag "1e-06".data := rfl
    have h2 : numIntDigits "1e-06".data = ['1'] := rfl
    have h3 : numFracDigits "1e-06".data = [] := rfl
    have h4 : numExpVal "1e-06".data = -6 := by decide
    rw [h1, pyFloatMag, h2, h3, h4]
    norm_num [digitsVal]
    decide
  · intro cs
    have hq : ¬ (('$' :: cs).head? = some '"' ∧ ('$' :: cs).getLast? = some '"') := by
      rintro ⟨h1, _⟩
      simp at h1
    simp only [coerceChars, if_neg hq, lowerAscii_cons,
      show toLowerAscii '$' = '$' from by decide]
    rw [if_neg (by rintro (h|h|h) <;> simp at h),
      if_neg (by rintro (h|h|h) <;> simp at h),
      if_neg (by simp [matchNumber])]
  · intro cs
    have hq : ('"' :: cs ++ ['"']).head? = some '"' ∧
        ('"' :: cs ++ ['"']).getLast? = some '"' :=
      ⟨rfl, List.getLast?_concat _⟩
    simp only [coerceChars, if_pos hq]
    simp

/-- Witness for C4 at concrete tokens: `True`, `OFF`, `$internalField`
and the quoted `"3"`. -/
theorem coerce_spec_witness :
    coerceChars "True".data = .bool true
    ∧ coerceChars "OFF".data = .bool false
    ∧ coerceChars ('$' :: "internalField".data) =
        .str (String.mk ('$' :: "internalField".data))
    ∧ coerceChars ('"' :: "3".data ++ ['"']) = .str (String.mk "3".data) :=
  ⟨coerce_spec.1 "True".data (Or.inl (by decide)),
    coerce_spec.2.1 "OFF".data (Or.inr (Or.inl (by decide))),
    coerce_spec.2.2.2.2.1 "internalField".data,
    coerce_spec.2.2.2.2.2 "3".data⟩

/-- C6 counterexample: a case with no `heat_transfer` tag and no
`constant/thermophysicalProperties`, but with a `constant/g` file — the
code sets `has_heat_transfer`, while the claim's characterisation
("tag inferred or thermophysicalProperties exists") is false there. -/
theorem heat_flag_g_counterexample :
    hasHeatTransfer ⟨false, true, false, none⟩ [] = true
    ∧ specHasHeatTransfer ⟨false, true, false, none⟩ [] = false := ⟨rfl, rfl⟩

/-- C6 amended: `has_heat_transfer` is true exactly when the
`heat_transfer` tag was inferred or `constant/thermophysicalProperties`
exists **or `constant/g` exists**; `has_multiphase` is true exactly when
the `multiphase` tag was inferred or a readable
`constant/transportProperties` parses to a document with a `phases`
entry. -/
theorem heat_multiphase_flags (fs : CaseFiles) (tags : List String) :
    (hasHeatTransfer fs tags = true ↔
      (tags.contains "heat_transfer" = true ∨ fs.thermoExists = true ∨
        fs.gExists = true))
    ∧ (hasMultiphase fs tags = true ↔
      (tags.contains "multiphase" = true ∨
        (fs.transportExists = true ∧ ∃ txt, fs.transportText = some txt ∧
          amem (parseFoamString txt).data "phases" = true))) := by
  constructor
  · simp [hasHeatTransfer, Bool.or_eq_true]
    tauto
  · cases htt : fs.transportText with
    | none => simp [hasMultiphase, htt]
    | some txt => simp [hasMultiphase, htt]


/-- The parser's cursor never moves backwards, and never runs past the
end of the token list. -/
theorem parse_pos_bounds (fuel : Nat) :
    (∀ toks pos acc, pos ≤ (parseBlockContents fuel toks pos acc).1 ∧
      (pos ≤ toks.length → (parseBlockContents fuel toks pos acc).1 ≤ toks.length))
    ∧ (∀ toks pos, pos ≤ (parseList fuel toks pos).1 ∧
      (pos ≤ toks.length → (parseList fuel toks pos).1 ≤ toks.length))
    ∧ (∀ toks pos parts, pos ≤ (parseValue fuel toks pos parts).1 ∧
      (pos ≤ toks.length → (parseValue fuel toks pos parts).1 ≤ toks.length)) := by
  induction fuel with
  | zero =>
      refine ⟨fun toks pos acc => ?_, fun toks pos => ?_, fun toks pos parts => ?_⟩ <;>
        simp [parseBlockContents, parseList, parseValue]
  | succ fuel ih =>
      obtain ⟨ihB, ihL, ihV⟩ := ih
      refine ⟨fun toks pos acc => ?_, fun toks pos => ?_, fun toks pos parts => ?_⟩
      · by_cases hp : pos < toks.length
        · by_cases h1 : toks.getD pos "" = "\x7d"
          · simp only [parseBlockContents, if_pos hp, if_pos h1]
            exact ⟨le_rfl, fun h => h⟩
          · by_cases h2 : toks.getD pos "" = ";"
            · simp only [parseBlockContents, if_pos hp, if_neg h1, if_pos h2]
              obtain ⟨m, u⟩ := ihB toks (pos + 1) acc
              exact ⟨by omega, fun h => u (by omega)⟩
            · by_cases h3 : (toks.getD pos "").startsWith "#include"
              · simp only [parseBlockContents, if_pos hp, if_neg h1, if_neg h2, if_pos h3]
                by_cases h4 : pos + 1 < toks.length
                · simp only [if_pos h4]
                  obtain ⟨m, u⟩ := ihB toks (pos + 2) acc
                  exact ⟨by omega, fun h => u (by omega)⟩
                · simp only [if_neg h4]
                  obtain ⟨m, u⟩ := ihB toks (pos + 1) acc
                  exact ⟨by omega, fun h => u (by omega)⟩
              · by_cases h4 : pos + 1 < toks.length
                · by_cases h5 : toks.getD (pos + 1) "" = "\x7b"
                  · simp only [parseBlockContents, if_pos hp, if_neg h1, if_neg h2,
                      if_neg h3, if_pos h4, if_pos h5]
                    obtain ⟨m6, u6⟩ := ihB toks (pos + 2) []
                    by_cases h6 : (parseBlockContents fuel toks (pos + 2) []).1 < toks.length ∧
                        toks.getD (parseBlockContents fuel toks (pos + 2) []).1 "" = "\x7d"
                    · simp only [if_pos h6]
                      obtain ⟨m7, u7⟩ := ihB toks ((parseBlockContents fuel toks (pos + 2) []).1 + 1)
                        (ainsert acc (stripQuoteChars (toks.getD pos "")) (Value.dict (parseBlockContents fuel toks (pos + 2) []).2))
                      exact ⟨by omega, fun h => u7 (by omega)⟩
                    · simp only [if_neg h6]
                      obtain ⟨m7, u7⟩ := ihB toks (parseBlockContents fuel toks (pos + 2) []).1
                        (ainsert acc (stripQuoteChars (toks.getD pos "")) (Value.dict (parseBlockContents fuel toks (pos + 2) []).2))
                      exact ⟨by omega, fun h => u7 (u6 (by omega))⟩
                  · by_cases h6 : toks.getD (pos + 1) "" = "("
                    · simp only [parseBlockContents, if_pos hp, if_neg h1, if_neg h2,
                        if_neg h3, if_pos h4, if_neg h5, if_pos h6]
                      obtain ⟨mL, uL⟩ := ihL toks (pos + 2)
                      obtain ⟨m7, u7⟩ := ihB toks (consumeSemi toks (parseList fuel toks (pos + 2)).1)
                        (ainsert acc (stripQuoteChars (toks.getD pos "")) (Value.list (parseList fuel toks (pos + 2)).2))
                      have hcs : (parseList fuel toks (pos + 2)).1 ≤
                          consumeSemi toks (parseList fuel toks (pos + 2)).1 := by
                        unfold consumeSemi; split <;> omega
                      have hcs2 : (parseList fuel toks (pos + 2)).1 ≤ toks.length →
                          consumeSemi toks (parseList fuel toks (pos + 2)).1 ≤ toks.length := by
                        unfold consumeSemi; split <;> omega
                      exact ⟨by omega, fun h => u7 (hcs2 (uL (by omega)))⟩
                    · by_cases h7 : toks.getD (pos + 1) "" = ";"
                      · simp only [parseBlockContents, if_pos hp, if_neg h1, if_neg h2,
                          if_neg h3, if_pos h4, if_neg h5, if_neg h6, if_pos h7]
                        obtain ⟨m, u⟩ := ihB toks (pos + 2)
                          (ainsert acc (stripQuoteChars (toks.getD pos "")) (Value.bool true))
                        exact ⟨by omega, fun h => u (by omega)⟩
                      · simp only [parseBlockContents, if_pos hp, if_neg h1, if_neg h2,
                          if_neg h3, if_pos h4, if_neg h5, if_neg h6, if_neg h7]
                        obtain ⟨mV, uV⟩ := ihV toks (pos + 1) []
                        obtain ⟨m7, u7⟩ := ihB toks (consumeSemi toks (parseValue fuel toks (pos + 1) []).1)
                          (ainsert acc (stripQuoteChars (toks.getD pos "")) (parseValue fuel toks (pos + 1) []).2)
                        have hcs : (parseValue fuel toks (pos + 1) []).1 ≤
                            consumeSemi toks (parseValue fuel toks (pos + 1) []).1 := by
                          unfold consumeSemi; split <;> omega
                        have hcs2 : (parseValue fuel toks (pos + 1) []).1 ≤ toks.length →
                            consumeSemi toks (parseValue fuel toks (pos + 1) []).1 ≤ toks.length := by
                          unfold consumeSemi; split <;> omega
                        exact ⟨by omega, fun h => u7 (hcs2 (uV (by omega)))⟩
                · simp only [parseBlockContents, if_pos hp, if_neg h1, if_neg h2,
                    if_neg h3, if_neg h4]
                  exact ⟨by omega, fun h => by omega⟩
        · simp only [parseBlockContents, if_neg hp]
          exact ⟨le_rfl, fun h => h⟩
      · by_cases hp : pos < toks.length
        · by_cases h1 : toks.getD pos "" = ")"
          · simp only [parseList, if_pos hp, if_pos h1]
            exact ⟨by omega, fun h => by omega⟩
          · by_cases h2 : toks.getD pos "" = "("
            · simp only [parseList, if_pos hp, if_neg h1, if_pos h2]
              obtain ⟨m3, u3⟩ := ihL toks (pos + 1)
              obtain ⟨m4, u4⟩ := ihL toks (parseList fuel toks (pos + 1)).1
              exact ⟨by omega, fun h => u4 (u3 (by omega))⟩
            · by_cases h3 : toks.getD pos "" = "\x7b"
              · simp only [parseList, if_pos hp, if_neg h1, if_neg h2, if_pos h3]
                obtain ⟨m4, u4⟩ := ihB toks (pos + 1) []
                by_cases h5 : (parseBlockContents fuel toks (pos + 1) []).1 < toks.length ∧
                    toks.getD (parseBlockContents fuel toks (pos + 1) []).1 "" = "\x7d"
                · simp only [if_pos h5]
                  obtain ⟨m6, u6⟩ := ihL toks ((parseBlockContents fuel toks (pos + 1) []).1 + 1)
                  exact ⟨by omega, fun h => u6 (by omega)⟩
                · simp only [if_neg h5]
                  obtain ⟨m6, u6⟩ := ihL toks (parseBlockContents fuel toks (pos + 1) []).1
                  exact ⟨by omega, fun h => u6 (u4 (by omega))⟩
              · by_cases h4 : toks.getD pos "" = ";"
                · simp only [parseList, if_pos hp, if_neg h1, if_neg h2, if_neg h3, if_pos h4]
                  obtain ⟨m, u⟩ := ihL toks (pos + 1)
                  exact ⟨by omega, fun h => u (by omega)⟩
                · simp only [parseList, if_pos hp, if_neg h1, if_neg h2, if_neg h3, if_neg h4]
                  obtain ⟨m, u⟩ := ihL toks (pos + 1)
                  exact ⟨by omega, fun h => u (by omega)⟩
        · simp only [parseList, if_neg hp]
          exact ⟨le_rfl, fun h => h⟩
      · by_cases hp : pos < toks.length ∧ toks.getD pos "" ≠ ";" ∧
            toks.getD pos "" ≠ "\x7d" ∧ toks.getD pos "" ≠ "\x7b"
        · by_cases h1 : toks.getD pos "" = "("
          · simp only [parseValue, if_pos hp, if_pos h1]
            obtain ⟨mL, uL⟩ := ihL toks (pos + 1)
            obtain ⟨m2, u2⟩ := ihV toks (parseList fuel toks (pos + 1)).1
              (parts ++ [pyStrOfList (parseList fuel toks (pos + 1)).2])
            exact ⟨by omega, fun h => u2 (uL (by omega))⟩
          · simp only [parseValue, if_pos hp, if_neg h1]
            obtain ⟨m, u⟩ := ihV toks (pos + 1) (parts ++ [toks.getD pos ""])
            exact ⟨by omega, fun h => u (by omega)⟩
        · simp only [parseValue, if_neg hp]
          exact ⟨le_rfl, fun h => h⟩

/-- Monotonicity: `consumeSemi` never moves the cursor backwards. -/
theorem consumeSemi_ge (toks : List String) (p : Nat) : p ≤ consumeSemi toks p := by
  unfold consumeSemi; split <;> omega

/-- Boundedness: `consumeSemi` keeps the cursor within the token list. -/
theorem consumeSemi_le (toks : List String) (p : Nat) (h : p ≤ toks.length) :
    consumeSemi toks p ≤ toks.length := by
  unfold consumeSemi; split <;> omega

/-- When no closing brace occurs at or after the cursor, block parsing
consumes the entire remaining token stream and returns normally at end
of input (given fuel at least the remaining length). -/
theorem pbc_no_close_runs_to_end (fuel : Nat) :
    ∀ (toks : List String) (pos : Nat) (acc : AList),
    pos ≤ toks.length → toks.length ≤ fuel + pos →
    (∀ i, pos ≤ i → toks.getD i "" ≠ "\x7d") →
    (parseBlockContents fuel toks pos acc).1 = toks.length := by
  induction fuel with
  | zero =>
      intro toks pos acc h1 h2 h3
      simp only [parseBlockContents]
      omega
  | succ fuel ih =>
      intro toks pos acc hle hfuel hno
      by_cases hp : pos < toks.length
      · have h1 : toks.getD pos "" ≠ "\x7d" := hno pos le_rfl
        by_cases h2 : toks.getD pos "" = ";"
        · simp only [parseBlockContents, if_pos hp, if_neg h1, if_pos h2]
          exact ih toks (pos + 1) acc (by omega) (by omega) (fun i hi => hno i (by omega))
        · by_cases h3 : (toks.getD pos "").startsWith "#include"
          · simp only [parseBlockContents, if_pos hp, if_neg h1, if_neg h2, if_pos h3]
            by_cases h4 : pos + 1 < toks.length
            · simp only [if_pos h4]
              exact ih toks (pos + 2) acc (by omega) (by omega) (fun i hi => hno i (by omega))
            · simp only [if_neg h4]
              exact ih toks (pos + 1) acc (by omega) (by omega) (fun i hi => hno i (by omega))
          · by_cases h4 : pos + 1 < toks.length
            · by_cases h5 : toks.getD (pos + 1) "" = "\x7b"
              · simp only [parseBlockContents, if_pos hp, if_neg h1, if_neg h2, if_neg h3,
                  if_pos h4, if_pos h5]
                have hr : (parseBlockContents fuel toks (pos + 2) []).1 = toks.length :=
                  ih toks (pos + 2) [] (by omega) (by omega) (fun i hi => hno i (by omega))
                rw [hr, if_neg (fun hcc => absurd hcc.1 (lt_irrefl _))]
                refine ih toks toks.length _ le_rfl (by omega) (fun i hi => ?_)
                rw [List.getD_eq_default _ _ (by omega)]
                decide
              · by_cases h6 : toks.getD (pos + 1) "" = "("
                · simp only [parseBlockContents, if_pos hp, if_neg h1, if_neg h2, if_neg h3,
                    if_pos h4, if_neg h5, if_pos h6]
                  obtain ⟨mL, uL⟩ := (parse_pos_bounds fuel).2.1 toks (pos + 2)
                  have hp2a : pos + 2 ≤ consumeSemi toks (parseList fuel toks (pos + 2)).1 :=
                    le_trans mL (consumeSemi_ge _ _)
                  have hp2b : consumeSemi toks (parseList fuel toks (pos + 2)).1 ≤ toks.length :=
                    consumeSemi_le _ _ (uL (by omega))
                  exact ih toks _ _ hp2b (by omega) (fun i hi => hno i (by omega))
                · by_cases h7 : toks.getD (pos + 1) "" = ";"
                  · simp only [parseBlockContents, if_pos hp, if_neg h1, if_neg h2, if_neg h3,
                      if_pos h4, if_neg h5, if_neg h6, if_pos h7]
                    exact ih toks (pos + 2) _ (by omega) (by omega) (fun i hi => hno i (by omega))
                  · simp only [parseBlockContents, if_pos hp, if_neg h1, if_neg h2, if_neg h3,
                      if_pos h4, if_neg h5, if_neg h6, if_neg h7]
                    obtain ⟨mV, uV⟩ := (parse_pos_bounds fuel).2.2 toks (pos + 1) []
                    have hp2a : pos + 1 ≤ consumeSemi toks (parseValue fuel toks (pos + 1) []).1 :=
                      le_trans mV (consumeSemi_ge _ _)
                    have hp2b : consumeSemi toks (parseValue fuel toks (pos + 1) []).1 ≤ toks.length :=
                      consumeSemi_le _ _ (uV (by omega))
                    exact ih toks _ _ hp2b (by omega) (fun i hi => hno i (by omega))
            · simp only [parseBlockContents, if_pos hp, if_neg h1, if_neg h2, if_neg h3,
                if_neg h4]
              omega
      · simp only [parseBlockContents, if_neg hp]
        omega

/-- At or past end of input, block parsing returns immediately with the
entries accumulated so far. -/
theorem pbc_at_end (fuel : Nat) (toks : List String) (pos : Nat) (acc : AList)
    (h : ¬ pos < toks.length) : parseBlockContents fuel toks pos acc = (pos, acc) := by
  cases fuel <;> simp [parseBlockContents, h]

/-- C1 amended: `parse_string` never fails.  When a key's `\x7b` block is
never closed before the token stream ends, the recursive descent still
returns normally at end of input, binding the key to the best-effort
contents parsed from the unclosed block — there is no `MalformedDocument`
error path anywhere in the parser. -/
theorem parse_unclosed_brace_best_effort (fuel : Nat) (k : String) (rest : List String)
    (h1 : k ≠ "\x7d") (h2 : k ≠ ";") (h3 : ¬ (k.startsWith "#include" = true))
    (hno : ∀ i, rest.getD i "" ≠ "\x7d")
    (hfuel : rest.length + 2 ≤ fuel) :
    parseBlockContents (fuel + 1) (k :: "\x7b" :: rest) 0 [] =
      ((k :: "\x7b" :: rest).length,
        ainsert [] (stripQuoteChars k)
          (Value.dict (parseBlockContents fuel (k :: "\x7b" :: rest) 2 []).2)) := by
  have hlen : (k :: "\x7b" :: rest).length = rest.length + 2 := by simp
  have hno2 : ∀ i, 2 ≤ i → (k :: "\x7b" :: rest).getD i "" ≠ "\x7d" := by
    intro i hi
    obtain ⟨j, rfl⟩ : ∃ j, i = j + 2 := ⟨i - 2, by omega⟩
    simpa using hno j
  have hr1 : (parseBlockContents fuel (k :: "\x7b" :: rest) 2 []).1 =
      (k :: "\x7b" :: rest).length :=
    pbc_no_close_runs_to_end fuel _ 2 [] (by omega) (by omega) hno2
  simp only [parseBlockContents, List.getD_cons_zero, List.getD_cons_succ,
    List.length_cons]
  rw [if_pos (by omega), if_neg h1, if_neg h2, if_neg h3, if_pos (by omega)]
  simp only [if_true, Nat.zero_add]
  simp only [List.length_cons] at hr1
  have hc : ¬ ((parseBlockContents fuel (k :: "\x7b" :: rest) 2 []).1 <
      rest.length + 1 + 1 ∧
      (k :: "\x7b" :: rest).getD
        (parseBlockContents fuel (k :: "\x7b" :: rest) 2 []).1 "" = "\x7d") := by
    intro hcc
    omega
  rw [if_neg hc, hr1]
  rw [pbc_at_end fuel _ _ _ (by simp)]

/-- C1 counterexample: on the unbalanced input `a \x7b` (an opening brace
with no matching closer), `parse_string` does not fail with
`MalformedDocument` — it returns a complete `FoamDict` whose data binds
`a` to the partially parsed (empty) sub-dictionary. -/
theorem parse_string_unbalanced_counterexample :
    parseFoamString "a \x7b" = ⟨[], [("a", Value.dict [])]⟩ := rfl

/-- Witness for the amended C1 at the concrete token stream
`a \x7b b 1` (unclosed block with contents). -/
theorem parse_unclosed_brace_best_effort_witness :
    parseBlockContents 5 ["a", "\x7b", "b", "1"] 0 [] =
      ((["a", "\x7b", "b", "1"] : List String).length,
        ainsert [] (stripQuoteChars "a")
          (Value.dict (parseBlockContents 4 ["a", "\x7b", "b", "1"] 2 []).2)) :=
  parse_unclosed_brace_best_effort 4 "a" ["b", "1"] (by decide) (by decide)
    (by decide)
    (by
      intro i
      match i with
      | 0 => decide
      | 1 => decide
      | n + 2 =>
          rw [List.getD_eq_default _ _ (by simp)]
          decide)
    (by decide)

/-- C9: during block parsing, a key token immediately followed by `;`
(a bare keyword with no explicit value) is entered into the entries
mapping with the boolean value `true`, and parsing continues after the
semicolon. -/
theorem bare_keyword_bool_true (fuel : Nat) (toks : List String) (pos : Nat)
    (acc : AList) (k : String)
    (hk : toks.getD pos "" = k) (hsemi : toks.getD (pos + 1) "" = ";")
    (hlt : pos + 1 < toks.length)
    (h1 : k ≠ "\x7d") (h2 : k ≠ ";") (h3 : ¬ (k.startsWith "#include" = true)) :
    parseBlockContents (fuel + 1) toks pos acc =
      parseBlockContents fuel toks (pos + 2)
        (ainsert acc (stripQuoteChars k) (Value.bool true)) := by
  have hp : pos < toks.length := by omega
  simp only [parseBlockContents, if_pos hp, hk, if_neg h1, if_neg h2, if_neg h3,
    if_pos hlt, hsemi]
  simp

/-- Witness for C9 at the concrete token stream `flag ;`. -/
theorem bare_keyword_bool_true_witness :
    parseBlockContents 3 ["flag", ";"] 0 [] =
      parseBlockContents 2 ["flag", ";"] 2
        (ainsert [] (stripQuoteChars "flag") (Value.bool true)) :=
  bare_keyword_bool_true 2 ["flag", ";"] 0 [] "flag" rfl rfl (by decide)
    (by decide) (by decide) (by decide)

/-- The persisted rows of a list headed by an entry carrying a vector
start with that vector. -/
theorem savedRows_cons_some (e : TutorialEntry) (l : List TutorialEntry) (v : Vec)
    (h : e.embedding = some v) :
    savedEmbeddingRows (e :: l) = v :: savedEmbeddingRows l := by
  simp [savedEmbeddingRows, h]

/-- Core alignment fact for `_add_embeddings` followed by `_save`: over a
batch attached pairwise to entries that started without vectors, the
compacted row file keeps entry `i`'s vector at row `i`. -/
theorem zipped_rows :
    ∀ (entries : List TutorialEntry) (embs : List Vec),
    (∀ e ∈ entries, e.embedding = none) →
    ∀ (i : Nat) (e : TutorialEntry) (v : Vec),
      (((entries.zip embs).map fun p : TutorialEntry × Vec =>
          { p.1 with embedding := some p.2 }) ++
        entries.drop embs.length)[i]? = some e →
      e.embedding = some v →
      (savedEmbeddingRows
        (((entries.zip embs).map fun p : TutorialEntry × Vec =>
            { p.1 with embedding := some p.2 }) ++
          entries.drop embs.length))[i]? = some v := by
  intro entries
  induction entries with
  | nil => intro embs h0 i e v hg hv; simp at hg
  | cons e0 es ih =>
      intro embs h0 i e v hg hv
      cases embs with
      | nil =>
          simp only [List.zip_nil_right, List.map_nil, List.drop_zero,
            List.nil_append] at hg
          have hmem : e ∈ e0 :: es := List.mem_iff_getElem?.2 ⟨i, hg⟩
          rw [h0 e hmem] at hv
          exact absurd hv (by simp)
      | cons v0 vs =>
          simp only [List.zip_cons_cons, List.map_cons, List.drop_succ_cons,
            List.cons_append] at hg ⊢
          cases i with
          | zero =>
              simp only [List.getElem?_cons_zero, Option.some.injEq] at hg
              subst hg
              simp only [Option.some.injEq] at hv
              rw [savedRows_cons_some _ _ v0 rfl]
              simp [hv]
          | succ n =>
              simp only [List.getElem?_cons_succ] at hg
              rw [savedRows_cons_some _ _ v0 rfl]
              simp only [List.getElem?_cons_succ]
              exact ih vs (fun x hx => h0 x (List.mem_cons_of_mem _ hx)) n e v hg hv

/-- C5: after `_add_embeddings` and `_save` over entries that start with
no vector (as `_extract_entry` produces them), the persisted embeddings
file is positionally aligned — the entry at corpus position `idx` that
carries a vector finds that very vector at row `idx` — and at query time
the searcher's lookup for the candidate at corpus position `idx`
(`entryEmbFor`, i.e. `self._embeddings[idx]`) returns exactly that
entry's vector. -/
theorem embedding_positional_alignment (entries : List TutorialEntry)
    (batch : Option (List Vec)) (h0 : ∀ e ∈ entries, e.embedding = none)
    (s : Option String) (t : Option (List String)) (m : Option String)
    (idx : Nat) (e : TutorialEntry) (v : Vec)
    (hmem : (idx, e) ∈ hardFilter (addEmbeddings entries batch) s t m)
    (hv : e.embedding = some v) :
    (addEmbeddings entries batch)[idx]? = some e
    ∧ (savedEmbeddingRows (addEmbeddings entries batch))[idx]? = some v
    ∧ entryEmbFor (some (savedEmbeddingRows (addEmbeddings entries batch))) idx =
        some v := by
  have hg : (addEmbeddings entries batch)[idx]? = some e :=
    List.mk_mem_enum_iff_getElem?.1 (List.mem_filter.1 hmem).1
  have hrow : (savedEmbeddingRows (addEmbeddings entries batch))[idx]? = some v := by
    cases batch with
    | none =>
        have hmem2 : e ∈ entries :=
          List.mem_iff_getElem?.2 ⟨idx, by simpa [addEmbeddings] using hg⟩
        rw [h0 e hmem2] at hv
        exact absurd hv (by simp)
    | some embs =>
        by_cases hne : embs.isEmpty
        · have heq : addEmbeddings entries (some embs) = entries := by
            simp [addEmbeddings, hne]
          rw [heq] at hg
          have hmem2 : e ∈ entries := List.mem_iff_getElem?.2 ⟨idx, hg⟩
          rw [h0 e hmem2] at hv
          exact absurd hv (by simp)
        · have hcore : addEmbeddings entries (some embs) =
              ((entries.zip embs).map fun p : TutorialEntry × Vec =>
                { p.1 with embedding := some p.2 }) ++ entries.drop embs.length := by
            simp [addEmbeddings, hne]
          rw [hcore] at hg ⊢
          exact zipped_rows entries embs h0 idx e v hg hv
  refine ⟨hg, hrow, ?_⟩
  obtain ⟨hlt, hval⟩ := List.getElem?_eq_some.1 hrow
  have hnil : (savedEmbeddingRows (addEmbeddings entries batch)).isEmpty = false := by
    cases hcase : savedEmbeddingRows (addEmbeddings entries batch) with
    | nil => rw [hcase] at hlt; simp at hlt
    | cons a l => rfl
  simp only [entryEmbFor, hnil, Bool.not_false, Bool.true_and]
  rw [if_pos (by simpa using hlt), List.getD_eq_getElem _ _ hlt, hval]

/-- Witness for C5: a one-entry corpus with a one-vector batch. -/
theorem embedding_positional_alignment_witness :
    (addEmbeddings
        [⟨"p", "s", "11", [], [], [], none, false, false, "blockMesh", "d", none⟩]
        (some [[1, 2]]))[0]? =
      some ⟨"p", "s", "11", [], [], [], none, false, false, "blockMesh", "d",
        some [1, 2]⟩
    ∧ (savedEmbeddingRows (addEmbeddings
        [⟨"p", "s", "11", [], [], [], none, false, false, "blockMesh", "d", none⟩]
        (some [[1, 2]])))[0]? = some [1, 2]
    ∧ entryEmbFor (some (savedEmbeddingRows (addEmbeddings
        [⟨"p", "s", "11", [], [], [], none, false, false, "blockMesh", "d", none⟩]
        (some [[1, 2]])))) 0 = some [1, 2] :=
  embedding_positional_alignment
    [⟨"p", "s", "11", [], [], [], none, false, false, "blockMesh", "d", none⟩]
    (some [[1, 2]]) (by intro e he; simp at he; rw [he]) none none none 0
    ⟨"p", "s", "11", [], [], [], none, false, false, "blockMesh", "d", some [1, 2]⟩
    [1, 2] (by decide) rfl

/-- Code-point order is irreflexive. -/
theorem charListLt_irrefl (l : List Char) : charListLt l l = false := by
  induction l with
  | nil => rfl
  | cons c cs ih => simp [charListLt, ih]

/-- Path order ignores a common prefix. -/
theorem pathLexLt_append (q a b : List String) :
    pathLexLt (q ++ a) (q ++ b) = pathLexLt a b := by
  induction q with
  | nil => rfl
  | cons x xs ih =>
      simp only [List.cons_append, pathLexLt, pyStrLt, charListLt_irrefl,
        Bool.false_eq_true, if_false, if_pos rfl]
      exact ih

/-- Every path discovered inside a directory extends the walk prefix
with that directory's name. -/
theorem findCases_shape :
    ∀ (t : FSTree) (pre p : List String), p ∈ findCases pre t →
      ∃ rest, p = pre ++ (t.nameOf :: rest) := by
  intro t
  refine @FSTree.rec
    (fun t => ∀ pre p, p ∈ findCases pre t → ∃ rest, p = pre ++ (t.nameOf :: rest))
    (fun ch => ∀ pre p, p ∈ findCasesList pre ch →
      ∃ d, d ∈ ch ∧ ∃ rest, p = pre ++ (d.nameOf :: rest))
    ?_ ?_ ?_ ?_ t
  · intro n pre p hp
    simp [findCases] at hp
  · intro nm ch ih pre p hp
    by_cases hc : hasCaseMarker ch
    · simp only [findCases, if_pos hc, List.mem_singleton] at hp
      exact ⟨[], by simp [hp, FSTree.nameOf]⟩
    · simp only [findCases, if_neg hc] at hp
      obtain ⟨d, _, rest, hrest⟩ := ih (pre ++ [nm]) p hp
      exact ⟨d.nameOf :: rest, by simp [hrest, FSTree.nameOf]⟩
  · intro pre p hp
    simp [findCasesList] at hp
  · intro c cs ihc ihcs pre p hp
    simp only [findCasesList, List.mem_append] at hp
    rcases hp with hp | hp
    · obtain ⟨rest, hrest⟩ := ihc pre p hp
      exact ⟨c, List.mem_cons_self _ _, rest, hrest⟩
    · obtain ⟨d, hd, rest, hrest⟩ := ihcs pre p hp
      exact ⟨d, List.mem_cons_of_mem _ hd, rest, hrest⟩

/-- Every path discovered under a sibling list comes from one of the
siblings, extending the prefix with that sibling's name. -/
theorem findCasesList_shape (ch : List FSTree) (pre p : List String)
    (hp : p ∈ findCasesList pre ch) :
    ∃ d, d ∈ ch ∧ ∃ rest, p = pre ++ (d.nameOf :: rest) := by
  induction ch with
  | nil => simp [findCasesList] at hp
  | cons c cs ih =>
      simp only [findCasesList, List.mem_append] at hp
      rcases hp with hp | hp
      · obtain ⟨rest, hrest⟩ := findCases_shape c pre p hp
        exact ⟨c, List.mem_cons_self _ _, rest, hrest⟩
      · obtain ⟨d, hd, rest, hrest⟩ := ih hp
        exact ⟨d, List.mem_cons_of_mem _ hd, rest, hrest⟩

/-- When every directory enumerates its children in strictly increasing
name order, discovery yields pairwise lexically increasing paths. -/
theorem findCases_pairwise :
    ∀ (t : FSTree) (pre : List String), treeSorted t = true →
      List.Pairwise (fun p q => pathLexLt p q = true) (findCases pre t) := by
  intro t
  refine @FSTree.rec
    (fun t => ∀ pre, treeSorted t = true →
      List.Pairwise (fun p q => pathLexLt p q = true) (findCases pre t))
    (fun ch => ∀ pre, treeSortedList ch = true →
      namesStrictSorted (ch.map FSTree.nameOf) = true →
      List.Pairwise (fun p q => pathLexLt p q = true) (findCasesList pre ch))
    ?_ ?_ ?_ ?_ t
  · intro n pre _
    simp [findCases]
  · intro nm ch ih pre hs
    rw [treeSorted, Bool.and_eq_true] at hs
    by_cases hc : hasCaseMarker ch
    · simp [findCases, if_pos hc]
    · simp only [findCases, if_neg hc]
      exact ih (pre ++ [nm]) hs.2 hs.1
  · intro pre _ _
    simp [findCasesList]
  · intro c cs ihc ihcs pre hlist hnames
    rw [treeSortedList, Bool.and_eq_true] at hlist
    simp only [List.map_cons, namesStrictSorted, Bool.and_eq_true,
      List.all_eq_true] at hnames
    rw [findCasesList, List.pairwise_append]
    refine ⟨ihc pre hlist.1, ihcs pre hlist.2 hnames.2, ?_⟩
    intro p hp q hq
    obtain ⟨rest, hrest⟩ := findCases_shape c pre p hp
    obtain ⟨d, hd, rest', hrest'⟩ := findCasesList_shape cs pre q hq
    have hlt : pyStrLt c.nameOf d.nameOf = true :=
      hnames.1 d.nameOf (List.mem_map_of_mem _ hd)
    rw [hrest, hrest', pathLexLt_append]
    simp [pathLexLt, hlt]

/-- Bridge from `Pairwise` to the boolean sortedness check. -/
theorem pathsSortedLex_of_pairwise :
    ∀ l, List.Pairwise (fun p q => pathLexLt p q = true) l →
      pathsSortedLex l = true := by
  intro l h
  induction l with
  | nil => rfl
  | cons p ps ih =>
      rw [List.pairwise_cons] at h
      simp only [pathsSortedLex, Bool.and_eq_true, List.all_eq_true]
      exact ⟨fun q hq => h.1 q hq, ih h.2⟩

/-- C7 amended: case discovery follows the operating system's directory
enumeration order (`os.walk` does not sort), so the index is a
deterministic function of the enumerated tree; when every directory's
children are enumerated in strictly increasing name order, discovery is
in lexical path order. -/
theorem find_cases_sorted_when_enumeration_sorted (t : FSTree) (pre : List String)
    (h : treeSorted t = true) : pathsSortedLex (findCases pre t) = true :=
  pathsSortedLex_of_pairwise _ (findCases_pairwise t pre h)

/-- C7 counterexample: a tree whose root enumerates `b` before `a` (both
cases) is discovered in that enumeration order, which is not lexical. -/
theorem find_cases_enum_order_counterexample :
    findCases [] (.dir "tut"
        [.dir "b" [.dir "system" [.file "controlDict"]],
         .dir "a" [.dir "system" [.file "controlDict"]]]) =
      [["tut", "b"], ["tut", "a"]]
    ∧ pathsSortedLex [["tut", "b"], ["tut", "a"]] = false :=
  ⟨by decide, by decide⟩

/-- Witness for the amended C7 on a concrete sorted tree. -/
theorem find_cases_sorted_witness :
    pathsSortedLex (findCases []
      (.dir "tut" [.dir "a" [.dir "system" [.file "controlDict"]],
                   .dir "b" [.dir "system" [.file "controlDict"]]])) = true :=
  find_cases_sorted_when_enumeration_sorted _ [] (by decide)

/-- A falsy solver argument imposes no constraint. -/
theorem hardFilter_drop_solver (entries : List TutorialEntry) (s : Option String)
    (t : Option (List String)) (m : Option String) (h : truthyS s = false) :
    hardFilter entries s t m = hardFilter entries none t m := by
  unfold hardFilter
  apply List.filter_congr
  intro p _
  simp only [solverOk, h]
  simp [truthyS]

/-- A falsy physics-tags argument imposes no constraint. -/
theorem hardFilter_drop_tags (entries : List TutorialEntry) (s : Option String)
    (t : Option (List String)) (m : Option String) (h : truthyL t = false) :
    hardFilter entries s t m = hardFilter entries s none m := by
  unfold hardFilter
  apply List.filter_congr
  intro p _
  simp only [tagsOk, h]
  simp [truthyL]

/-- A falsy mesh-type argument imposes no constraint. -/
theorem hardFilter_drop_mesh (entries : List TutorialEntry) (s : Option String)
    (t : Option (List String)) (m : Option String) (h : truthyS m = false) :
    hardFilter entries s t m = hardFilter entries s t none := by
  unfold hardFilter
  apply List.filter_congr
  intro p _
  simp only [meshOk, h]
  simp [truthyS]

/-- With no constraints the hard filter returns the whole corpus,
enumerated with positions. -/
theorem hardFilter_unconstrained (entries : List TutorialEntry) :
    hardFilter entries none none none = entries.enum := by
  unfold hardFilter
  rw [List.filter_eq_self]
  intro p _
  simp [solverOk, tagsOk, meshOk, truthyS, truthyL]

/-- Over a non-empty corpus the relaxation ladder always produces
candidates: the last resort is the unconstrained corpus. -/
theorem relaxCandidates_ne_nil (entries : List TutorialEntry) (s : Option String)
    (t : Option (List String)) (m : Option String) (hne : entries ≠ []) :
    relaxCandidates entries s t m ≠ [] := by
  have hfin : ∀ x : List (Nat × TutorialEntry),
      (if x.isEmpty then hardFilter entries none none none else x) ≠ [] := by
    intro x
    by_cases hx : x.isEmpty
    · rw [if_pos hx, hardFilter_unconstrained]
      simpa [List.enum_eq_nil] using hne
    · rw [if_neg hx]
      intro hh
      rw [hh] at hx
      exact hx rfl
  simp only [relaxCandidates]
  by_cases h0 : (hardFilter entries s t m).isEmpty
  · rw [if_pos h0]
    exact hfin _
  · rw [if_neg h0]
    intro hh
    rw [hh] at h0
    exact h0 rfl

/-- When the hard filter is empty, the source's conditionally-executed
relaxation stages compute exactly the spec's ladder: drop the solver,
then also the tags, then everything, stopping at the first non-empty
result. -/
theorem relax_matches_spec (entries : List TutorialEntry) (s : Option String)
    (t : Option (List String)) (m : Option String)
    (h0 : hardFilter entries s t m = []) :
    relaxCandidates entries s t m = specLadder entries t m := by
  simp only [relaxCandidates, specLadder, h0, List.isEmpty_nil, if_true]
  split_ifs with h1 h2 h3 h4 h5 h6 h7 h8 h9 h10 h11 h12 h13 h14
  · rfl
  · exact absurd ((Bool.and_eq_true _ _ ▸ h2 : _ ∧ _)).1 h4
  · rfl
  · exact absurd ((Bool.and_eq_true _ _ ▸ h2 : _ ∧ _)).1 h5
  · rfl
  · have ht : truthyL t = false := by
      cases hv : truthyL t
      · rfl
      · exact absurd (by rw [Bool.and_eq_true]; exact ⟨h6, hv⟩) h2
    rw [← hardFilter_drop_tags entries none t m ht] at h7
    exact absurd h6 h7
  · rfl
  · rfl
  · have hs : truthyS s = false := by
      cases hv : truthyS s
      · rfl
      · exact absurd (by
          rw [Bool.and_eq_true]
          exact ⟨hv, by rw [Bool.or_eq_true]; exact Or.inl ((Bool.and_eq_true _ _ ▸ h8 : _ ∧ _)).2⟩) h1
    rw [← hardFilter_drop_solver entries s t m hs, h0] at h10
    exact absurd rfl h10
  · rfl
  · have hs : truthyS s = false := by
      cases hv : truthyS s
      · rfl
      · exact absurd (by
          rw [Bool.and_eq_true]
          exact ⟨hv, by rw [Bool.or_eq_true]; exact Or.inl ((Bool.and_eq_true _ _ ▸ h8 : _ ∧ _)).2⟩) h1
    rw [← hardFilter_drop_solver entries s t m hs, h0] at h11
    exact absurd rfl h11
  · rfl
  · have ht : truthyL t = false := by
      cases hv : truthyL t
      · rfl
      · exact absurd (by rw [Bool.and_eq_true]; exact ⟨h12, hv⟩) h8
    rw [← hardFilter_drop_tags entries none t m ht] at h14
    exact absurd h13 h14
  · have ht : truthyL t = false := by
      cases hv : truthyL t
      · rfl
      · exact absurd (by rw [Bool.and_eq_true]; exact ⟨h12, hv⟩) h8
    cases hv : truthyS s
    · rw [← hardFilter_drop_solver entries s t m hv, h0] at h13
      exact absurd rfl h13
    · have hm : truthyS m = false := by
        cases hw : truthyS m
        · rfl
        · exact absurd (by
            rw [Bool.and_eq_true]
            exact ⟨hv, by rw [Bool.or_eq_true]; exact Or.inr hw⟩) h1
      rw [hardFilter_drop_tags entries none t m ht,
        hardFilter_drop_mesh entries none none m hm]
  · exact absurd rfl h12
  · exact absurd rfl h12
  · exact absurd rfl h12

/-- For any `top_n ≥ 1`, `search` returns an empty result list exactly
when the corpus is empty. -/
theorem search_empty_iff (cosSim : Vec → Vec → ℚ) (embedFn : String → Option Vec)
    (entries : List TutorialEntry) (embeddings : Option (List Vec))
    (s : Option String) (t : Option (List String)) (kws : Option (List String))
    (qt : Option String) (m : Option String) (topN : Int) (htop : 1 ≤ topN) :
    (searchResults cosSim embedFn entries embeddings s t kws qt topN m = [] ↔
      entries = []) := by
  constructor
  · intro hr
    by_contra hne
    have hce : relaxCandidates entries s t m ≠ [] :=
      relaxCandidates_ne_nil entries s t m hne
    simp only [searchResults] at hr
    rw [if_neg (by simpa [List.isEmpty_iff] using hne),
      if_neg (by simpa [List.isEmpty_iff] using hce)] at hr
    simp only [pySliceTo, if_pos (by omega : (0:Int) ≤ topN)] at hr
    rw [List.take_eq_nil_iff] at hr
    rcases hr with hr | hr
    · omega
    · have hlen := congrArg List.length hr
      rw [List.length_mergeSort, List.length_map] at hlen
      exact hce (List.length_eq_zero.1 hlen)
  · intro he
    simp [searchResults, he]

/-- C2 counterexample: with `top_n = 0`, `search` returns an empty result
list over a non-empty corpus, so "search returns an empty result list
only when the corpus itself is empty" fails as stated. -/
theorem search_topn_zero_counterexample :
    searchResults (fun _ _ => 0) (fun _ => none)
      [⟨"p", "s", "11", [], [], [], none, false, false, "blockMesh", "d", none⟩]
      none none none none none 0 none = []
    ∧ ([⟨"p", "s", "11", [], [], [], none, false, false, "blockMesh", "d", none⟩] :
        List TutorialEntry) ≠ [] := by
  constructor
  · decide
  · decide

/-- C2 amended: when the conjunctive hard filter yields zero candidates
over a non-empty corpus, the candidates are exactly the spec ladder's
result (drop solver, then tags, then everything, stopping at the first
non-empty set) and are non-empty; and for any `top_n ≥ 1`, `search`
returns an empty result list exactly when the corpus is empty. -/
theorem relaxation_ladder_spec (entries : List TutorialEntry) :
    (∀ (s : Option String) (t : Option (List String)) (m : Option String),
      hardFilter entries s t m = [] → entries ≠ [] →
      relaxCandidates entries s t m = specLadder entries t m
      ∧ relaxCandidates entries s t m ≠ [])
    ∧ (∀ (cosSim : Vec → Vec → ℚ) (embedFn : String → Option Vec)
        (embeddings : Option (List Vec)) (s : Option String)
        (t kws : Option (List String)) (qt m : Option String) (topN : Int),
        1 ≤ topN →
        (searchResults cosSim embedFn entries embeddings s t kws qt topN m = [] ↔
          entries = [])) :=
  ⟨fun s t m h0 hne =>
    ⟨relax_matches_spec entries s t m h0, relaxCandidates_ne_nil entries s t m hne⟩,
   fun cosSim embedFn embeddings s t kws qt m topN htop =>
    search_empty_iff cosSim embedFn entries embeddings s t kws qt m topN htop⟩

/-- Witness for the amended C2 at a concrete one-entry corpus with a
mismatching solver constraint. -/
theorem relaxation_ladder_spec_witness :
    (relaxCandidates
        [⟨"p", "s", "11", [], [], [], none, false, false, "blockMesh", "d", none⟩]
        (some "x") none none =
      specLadder
        [⟨"p", "s", "11", [], [], [], none, false, false, "blockMesh", "d", none⟩]
        none none
      ∧ relaxCandidates
        [⟨"p", "s", "11", [], [], [], none, false, false, "blockMesh", "d", none⟩]
        (some "x") none none ≠ [])
    ∧ (searchResults (fun _ _ => 0) (fun _ => none)
        [⟨"p", "s", "11", [], [], [], none, false, false, "blockMesh", "d", none⟩]
        none none none none none 5 none = [] ↔
      ([⟨"p", "s", "11", [], [], [], none, false, false, "blockMesh", "d", none⟩] :
        List TutorialEntry) = []) :=
  ⟨(relaxation_ladder_spec _).1 (some "x") none none (by decide) (by decide),
   (relaxation_ladder_spec _).2 (fun _ _ => 0) (fun _ => none) none none none none
     none none 5 (by decide)⟩

/-- Appending a matching keyword never decreases the keyword term: the
matched fraction goes from `m/n` to `(m+1)/(n+1)` (or from the neutral
half weight to full weight when the list was empty). -/
theorem kwTerm_append_matching (e : TutorialEntry) (kws : List String) (kw : String)
    (hm : kwMatches e kw = true) :
    kwTerm kws e ≤ kwTerm (kws ++ [kw]) e := by
  cases kws with
  | nil =>
      simp only [kwTerm, List.nil_append, List.isEmpty_nil, if_true,
        List.isEmpty_cons, if_false, List.countP_cons, List.countP_nil, hm,
        List.length_singleton, wKeyword]
      norm_num
  | cons k0 ks =>
      have hc : (k0 :: (ks ++ [kw])).countP (kwMatches e) =
          (k0 :: ks).countP (kwMatches e) + 1 := by
        rw [← List.cons_append, List.countP_append]
        simp [List.countP_cons, hm]
      have hmn : ((k0 :: ks).countP (kwMatches e) : ℚ) ≤ (ks.length : ℚ) + 1 := by
        have h : (k0 :: ks).countP (kwMatches e) ≤ (k0 :: ks).length :=
          List.countP_le_length _
        rw [List.length_cons] at h
        exact_mod_cast h
      simp only [kwTerm, List.isEmpty_cons, Bool.false_eq_true, if_false, hc,
        List.cons_append, List.length_append, List.length_cons,
        List.length_singleton, List.length_nil]
      push_cast
      rw [div_le_div_iff₀ (by positivity) (by positivity)]
      have hw : (0 : ℚ) < wKeyword := by norm_num [wKeyword]
      nlinarith [hmn, hw]

/-- C8: extending the query's keyword list with one additional keyword
that matches the entry (case-insensitive substring of the concatenated
path, description and physics tags) never decreases that entry's score,
all other query parameters held fixed — for every cosine-similarity
function, entry and query. -/
theorem score_keyword_monotone (cosSim : Vec → Vec → ℚ) (e : TutorialEntry)
    (solver : Option String) (tags kws : List String) (kw : String)
    (qe ee : Option Vec) (hm : kwMatches e kw = true) :
    scoreEntry cosSim e solver tags kws qe ee ≤
      scoreEntry cosSim e solver tags (kws ++ [kw]) qe ee := by
  unfold scoreEntry
  apply min_le_min _ le_rfl
  have hk := kwTerm_append_matching e kws kw hm
  linarith

/-- Witness for C8: adding the matching keyword `cav` to an empty
keyword list for the `cavity` entry. -/
theorem score_keyword_monotone_witness :
    scoreEntry (fun _ _ => 0)
      ⟨"cavity", "icoFoam", "11", [], [], ["incompressible"], none, false, false,
        "blockMesh", "lid-driven cavity", none⟩
      none [] [] none none ≤
    scoreEntry (fun _ _ => 0)
      ⟨"cavity", "icoFoam", "11", [], [], ["incompressible"], none, false, false,
        "blockMesh", "lid-driven cavity", none⟩
      none [] ([] ++ ["cav"]) none none :=
  score_keyword_monotone (fun _ _ => 0)
    ⟨"cavity", "icoFoam", "11", [], [], ["incompressible"], none, false, false,
      "blockMesh", "lid-driven cavity", none⟩
    none [] [] "cav" none none (by decide)

end FoamPilot
